import Mathlib

/-!
Verification of the `BinarySearchTree` class from `src/binary_search_tree.hpp`.

The C++ class is a template over `KeyType` (ordered by `<` / `>`) and
`ValueType`.  We embed it shallowly: nodes become an inductive tree (the
`nullptr` pointer becomes the `null` constructor), the member pair
`(m_Root, m_Size)` becomes a structure, and each member function becomes a
Lean function following the source line by line.  `std::size_t` arithmetic
is modelled by `Nat` (`--m_Size` as truncated subtraction; it only fires
when a node was actually deleted, so no wrap occurs on size-consistent
states).
-/

set_option maxHeartbeats 1000000

variable {α β : Type} [LinearOrder α]

/-- The C++ `struct BinaryNode`: a key/value pair (`Pair data`, split here
into `key`/`val`) plus owned `left`/`right` child pointers; the `nullptr`
pointer is the `null` constructor. -/
inductive BinaryNode (α β : Type) : Type
  | null : BinaryNode α β
  | node (key : α) (val : β) (left : BinaryNode α β) (right : BinaryNode α β)
deriving DecidableEq

open BinaryNode

/-- In-order traversal of the node structure (left, node, right). -/
def inorder : BinaryNode α β → List (α × β)
  | .null => []
  | .node k v l r => inorder l ++ (k, v) :: inorder r

/-- The keys of a tree, in in-order. -/
def keysOf (t : BinaryNode α β) : List α := (inorder t).map Prod.fst

/-- Number of nodes reachable from `t`. -/
def countNodes : BinaryNode α β → Nat
  | .null => 0
  | .node _ _ l r => 1 + countNodes l + countNodes r

/-- The private member `Find(key, node)`: recursive descent returning the
node with the given key, or `nullptr` (here `none`). -/
def findNode (key : α) : BinaryNode α β → Option (BinaryNode α β)
  | .null => none
  | .node k v l r =>
    if key < k then findNode key l
    else if k < key then findNode key r
    else some (.node k v l r)

/-- Dereference a node's `data` field (`none` for `nullptr`). -/
def dataOf : BinaryNode α β → Option (α × β)
  | .null => none
  | .node k v _ _ => some (k, v)

/-- The private member `Min(node)`: follow `left` pointers to the furthest
left child and return its data.  The C++ function returns `nullptr` for an
empty tree; callers in `Erase` only invoke it on non-empty subtrees, so we
thread a default that is never used on those calls. -/
def minDataD (d : α × β) : BinaryNode α β → α × β
  | .null => d
  | .node k v .null _ => (k, v)
  | .node _ _ (.node lk lv ll lr) _ => minDataD d (.node lk lv ll lr)

/-- The private member `Insert(data, node)` (both the copy and move
overloads share this logic).  Returns the updated subtree together with the
number of `++m_Size` increments performed (`0` or `1`). -/
def insertAux (d : α × β) : BinaryNode α β → BinaryNode α β × Nat
  | .null => (.node d.1 d.2 .null .null, 1)
  | .node k v l r =>
    if d.1 < k then
      let p := insertAux d l
      (.node k v p.1 r, p.2)
    else if k < d.1 then
      let p := insertAux d r
      (.node k v l p.1, p.2)
    else (.node k v l r, 0)

/-- The private member `Erase(key, node)`.  Returns the updated subtree
together with the number of `--m_Size` decrements performed.  In the
two-children case the node's data is overwritten by the minimum of the
right subtree and that key is then erased from the right subtree; in the
other cases the node is replaced by its only child (or `nullptr`). -/
def eraseAux (key : α) : BinaryNode α β → BinaryNode α β × Nat
  | .null => (.null, 0)
  | .node k v l r =>
    if key < k then
      let p := eraseAux key l
      (.node k v p.1 r, p.2)
    else if k < key then
      let p := eraseAux key r
      (.node k v l p.1, p.2)
    else
      match l, r with
      | .node lk lv ll lr, .node rk rv rl rr =>
        let m := minDataD (k, v) (.node rk rv rl rr)
        let p := eraseAux m.1 (.node rk rv rl rr)
        (.node m.1 m.2 (.node lk lv ll lr) p.1, p.2)
      | .null, _ => (r, 1)
      | .node lk lv ll lr, .null => (.node lk lv ll lr, 1)

/-- The C++ class data: `m_Root` and `m_Size`. -/
structure BinarySearchTree (α β : Type) : Type where
  m_Root : BinaryNode α β
  m_Size : Nat
deriving DecidableEq

namespace BinarySearchTree

/-- Default constructor: `nullptr` root, size `0`. -/
def empty : BinarySearchTree α β := ⟨.null, 0⟩

/-- Initialize constructor: one node holding `data`, size `1`. -/
def init (d : α × β) : BinarySearchTree α β := ⟨.node d.1 d.2 .null .null, 1⟩

/-- `Size()`. -/
def Size (s : BinarySearchTree α β) : Nat := s.m_Size

/-- `Empty()`. -/
def Empty (s : BinarySearchTree α β) : Bool := s.m_Size == 0

/-- `Contains(key)`: `Find(key, m_Root) != nullptr`. -/
def Contains (s : BinarySearchTree α β) (key : α) : Bool :=
  (findNode key s.m_Root).isSome

/-- `Find(key)`: `Find(key, m_Root)->data.second`.  The C++ version
dereferences unconditionally (undefined behaviour on an absent key); the
embedding returns `none` exactly on the paths where the C++ code would
dereference `nullptr`. -/
def Find (s : BinarySearchTree α β) (key : α) : Option β :=
  (findNode key s.m_Root).bind (fun n => (dataOf n).map Prod.snd)

/-- `Insert(data)`: `Insert(data, m_Root)` updates the root in place and
`m_Size` by however many `++m_Size` ran (0 or 1). -/
def Insert (s : BinarySearchTree α β) (d : α × β) : BinarySearchTree α β :=
  let p := insertAux d s.m_Root
  ⟨p.1, s.m_Size + p.2⟩

/-- `Erase(key)`: `Erase(key, m_Root)`. -/
def Erase (s : BinarySearchTree α β) (key : α) : BinarySearchTree α β :=
  let p := eraseAux key s.m_Root
  ⟨p.1, s.m_Size - p.2⟩

/-- `Clear()`: deletes every node and resets the size. -/
def Clear (s : BinarySearchTree α β) : BinarySearchTree α β := ⟨.null, 0⟩

end BinarySearchTree

/-- The BST ordering invariant: at every node, all keys of the left subtree
are strictly smaller and all keys of the right subtree strictly larger. -/
def IsBST : BinaryNode α β → Prop
  | .null => True
  | .node k _ l r =>
    (∀ x ∈ keysOf l, x < k) ∧ (∀ x ∈ keysOf r, k < x) ∧ IsBST l ∧ IsBST r

def decIsBST : (t : BinaryNode α β) → Decidable (IsBST t)
  | .null => isTrue trivial
  | .node k v l r =>
    haveI := decIsBST l
    haveI := decIsBST r
    decidable_of_iff
      ((∀ x ∈ keysOf l, x < k) ∧ (∀ x ∈ keysOf r, k < x) ∧ IsBST l ∧ IsBST r)
      Iff.rfl

instance (t : BinaryNode α β) : Decidable (IsBST t) := decIsBST t

/-- Trees reachable from a constructor by the mutating operations. -/
inductive Reachable : BinarySearchTree α β → Prop
  | empty : Reachable BinarySearchTree.empty
  | init (d : α × β) : Reachable (BinarySearchTree.init d)
  | insert {s : BinarySearchTree α β} (d : α × β) :
      Reachable s → Reachable (s.Insert d)
  | erase {s : BinarySearchTree α β} (key : α) :
      Reachable s → Reachable (s.Erase key)
  | clear {s : BinarySearchTree α β} :
      Reachable s → Reachable s.Clear

/-- A mutating operation, for stating properties of operation sequences. -/
inductive Op (α β : Type) : Type
  | ins (d : α × β)
  | del (key : α)

/-- Apply one operation. -/
def applyOp (s : BinarySearchTree α β) : Op α β → BinarySearchTree α β
  | .ins d => s.Insert d
  | .del key => s.Erase key

/-- Apply a sequence of operations, left to right. -/
def applyOps (s : BinarySearchTree α β) : List (Op α β) → BinarySearchTree α β
  | [] => s
  | op :: ops => applyOps (applyOp s op) ops

/-- Count the effective operations in a run: `.1` counts inserts whose key
was absent when applied, `.2` counts erases whose key was present. -/
def effCounts (s : BinarySearchTree α β) : List (Op α β) → Nat × Nat
  | [] => (0, 0)
  | .ins d :: ops =>
    let rest := effCounts (s.Insert d) ops
    if (findNode d.1 s.m_Root).isSome then rest else (rest.1 + 1, rest.2)
  | .del key :: ops =>
    let rest := effCounts (s.Erase key) ops
    if (findNode key s.m_Root).isSome then (rest.1, rest.2 + 1) else rest

/-- An operation that neither erases nor re-inserts the key `key`. -/
def OpAvoids (key : α) : Op α β → Prop
  | .ins d => d.1 ≠ key
  | .del k => k ≠ key

/-- `Find(key, m_Root)->data`: the pair stored at the found node. -/
def findData (key : α) (t : BinaryNode α β) : Option (α × β) :=
  (findNode key t).bind dataOf

/-- One token emitted by `LevelByLevel`: `out << curr->data.second << ' '`
for a real node, `out << '\n'` when the level delimiter is dequeued. -/
inductive Out (β : Type) : Type
  | val (b : β)
  | nl
deriving DecidableEq

/-- The value printed for a dequeued real node (empty for `nullptr`, which
is never enqueued). -/
def rootVals : BinaryNode α β → List β
  | .null => []
  | .node _ v _ _ => [v]

/-- The child pushes of the loop body: `if (curr->left) q.push(curr->left);
if (curr->right) q.push(curr->right);` — only non-null children enter the
queue, left before right. -/
def childList : BinaryNode α β → List (BinaryNode α β)
  | .null => []
  | .node _ _ l r =>
    (match l with
     | .null => []
     | .node lk lv ll lr => [BinaryNode.node lk lv ll lr]) ++
    (match r with
     | .null => []
     | .node rk rv rl rr => [BinaryNode.node rk rv rl rr])

/-- Total node count of a list of queued subtrees. -/
def qSize (ts : List (BinaryNode α β)) : Nat := (ts.map countNodes).sum

/-- The `LevelByLevel` queue loop.  The C++ queue always consists of the
not-yet-visited nodes of the current level, then the single `DELIMETER`
(`nullptr`), then the already-pushed nodes of the next level; we represent
that queue by the two node lists around the delimiter.  Dequeuing a real
node prints its value and pushes its non-null children behind the
delimiter; dequeuing the delimiter prints `'\n'`, stops if the queue is now
empty, and otherwise re-enqueues the delimiter and continues with the next
level.  (A `nullptr` entry other than the delimiter cannot occur; the model
skips it.) -/
def bfsLoop : List (BinaryNode α β) → List (BinaryNode α β) → List (Out β)
  | [], [] => [Out.nl]
  | [], t :: next => Out.nl :: bfsLoop (t :: next) []
  | .null :: cur, next => bfsLoop cur next
  | .node k v l r :: cur, next =>
    Out.val v :: bfsLoop cur (next ++ childList (BinaryNode.node k v l r))
termination_by cur next => 4 * (qSize cur + qSize next) + cur.length + 2 * next.length
decreasing_by
· simp only [qSize, List.map_nil, List.sum_nil, List.map_cons, List.sum_cons,
    List.length_nil, List.length_cons]
  omega
· simp only [qSize, List.map_cons, List.sum_cons, countNodes, List.length_cons]
  omega
· have h1 : qSize (next ++ childList (BinaryNode.node k v l r))
      = qSize next + (countNodes l + countNodes r) := by
    cases l <;> cases r <;>
      simp [qSize, childList, countNodes, List.map_append, List.sum_append] <;>
      omega
  have h2 : (next ++ childList (BinaryNode.node k v l r)).length
      ≤ next.length + 2 := by
    cases l <;> cases r <;> simp [childList]
  simp only [qSize] at h1
  simp only [qSize, List.map_cons, List.sum_cons, countNodes, List.length_cons]
  omega

/-- `LevelByLevel` as the list of emitted tokens: returns immediately on an
empty tree, otherwise seeds the queue with the root and the delimiter. -/
def LevelByLevelOut : BinaryNode α β → List (Out β)
  | .null => []
  | .node k v l r => bfsLoop [BinaryNode.node k v l r] []

/-- The member function `LevelByLevel(out)`. -/
def BinarySearchTree.LevelByLevel (s : BinarySearchTree α β) : List (Out β) :=
  LevelByLevelOut s.m_Root

/-- Rendering of the emitted tokens to characters, for `ValueType` =
`std::string`: each value is followed by one `' '`, each level ends in
`'\n'`. -/
def renderOut : List (Out String) → String
  | [] => ""
  | .val s :: rest => s ++ " " ++ renderOut rest
  | .nl :: rest => "\n" ++ renderOut rest

/-- Height of a tree (0 for `nullptr`). -/
def heightT : BinaryNode α β → Nat
  | .null => 0
  | .node _ _ l r => 1 + max (heightT l) (heightT r)

/-- Modelled from the spec: the values stored at depth `d`, in
left-to-right order. -/
def atDepth : Nat → BinaryNode α β → List β
  | _, .null => []
  | 0, .node _ v _ _ => [v]
  | d + 1, .node _ _ l r => atDepth d l ++ atDepth d r

/-- The largest height among a list of subtrees. -/
def maxH (ts : List (BinaryNode α β)) : Nat := (ts.map heightT).foldr max 0

/-- Modelled from the spec: breadth-first levels of a frontier — the list
of per-depth value lines, shallow to deep, left to right within a line. -/
def linesOf : List (BinaryNode α β) → List (List β)
  | [] => []
  | t :: ts =>
    ((t :: ts).flatMap rootVals) :: linesOf ((t :: ts).flatMap childList)
termination_by ts => 2 * qSize ts + ts.length
decreasing_by
· have key : ∀ us : List (BinaryNode α β),
      2 * qSize (us.flatMap childList) + (us.flatMap childList).length
        ≤ 2 * qSize us := by
    intro us
    induction us with
    | nil => simp [qSize]
    | cons u us ih =>
      have hu : 2 * qSize (childList u) + (childList u).length
          ≤ 2 * countNodes u := by
        cases u with
        | null => simp [childList, qSize, countNodes]
        | node k v l r =>
          cases l <;> cases r <;>
            simp [childList, qSize, countNodes, List.map_append,
              List.sum_append] <;>
            omega
      have hsplit : (u :: us).flatMap childList
          = childList u ++ us.flatMap childList := by
        simp [List.flatMap_cons]
      rw [hsplit]
      have hq : qSize (childList u ++ us.flatMap childList)
          = qSize (childList u) + qSize (us.flatMap childList) := by
        simp [qSize, List.map_append, List.sum_append]
      have hq2 : qSize (u :: us) = countNodes u + qSize us := by
        simp [qSize]
      rw [hq, hq2, List.length_append]
      omega
  have h := key (t :: ts)
  simp only [List.length_cons]
  omega

/-- Modelled from the spec: glue the per-depth lines into the token stream
(values of a line in order, then the line break). -/
def linesJoin (ls : List (List β)) : List (Out β) :=
  ls.flatMap (fun line => line.map Out.val ++ [Out.nl])

/-- Move constructor: the new tree takes `other`'s root pointer and size,
and `other` is left with a `nullptr` root and size 0.  Result: (new tree,
moved-from `other`). -/
def moveConstruct (other : BinarySearchTree α β) :
    BinarySearchTree α β × BinarySearchTree α β :=
  (⟨other.m_Root, other.m_Size⟩, ⟨.null, 0⟩)

/-- Move assignment for distinct objects (`this != &other`): `Clear()`
frees the old nodes (not observable in the value model), `*this` takes
`other`'s root and size, and `other` is emptied.  Result: (new `*this`,
moved-from `other`). -/
def moveAssign (dst src : BinarySearchTree α β) :
    BinarySearchTree α β × BinarySearchTree α β :=
  (⟨src.m_Root, src.m_Size⟩, ⟨.null, 0⟩)

/-- Move self-assignment: the `this == &other` guard returns `*this`
unchanged. -/
def moveAssignSelf (s : BinarySearchTree α β) : BinarySearchTree α β := s

/-- `Copy(node)` under an allocation budget: copying a node first allocates
it (`new BinaryNode(node->data)`, one unit of fuel, failing with `none`
when the budget is exhausted), then copies the left and right subtrees.
Returns the copy and the remaining budget. -/
def copyAlloc : BinaryNode α β → Nat → Option (BinaryNode α β × Nat)
  | .null, fuel => some (.null, fuel)
  | .node _ _ _ _, 0 => none
  | .node k v l r, fuel + 1 =>
    match copyAlloc l fuel with
    | none => none
    | some (l2, fuel2) =>
      match copyAlloc r fuel2 with
      | none => none
      | some (r2, fuel3) => some (.node k v l2 r2, fuel3)

/-- Copy assignment `*this = other` (distinct objects) under an allocation
budget: `Clear()` runs first (root `nullptr`, size 0), then
`m_Root = Copy(other.m_Root)` and `m_Size = other.m_Size`.  If `Copy`
fails, the two assignments never execute and `*this` stays as `Clear()`
left it.  Result: (final `*this`, whether the operation completed). -/
def copyAssignAlloc (dst src : BinarySearchTree α β) (fuel : Nat) :
    BinarySearchTree α β × Bool :=
  match copyAlloc src.m_Root fuel with
  | some (root2, _) => (⟨root2, src.m_Size⟩, true)
  | none => (⟨.null, 0⟩, false)

@[simp] lemma inorder_null : inorder (BinaryNode.null : BinaryNode α β) = [] := rfl

@[simp] lemma inorder_node (k : α) (v : β) (l r : BinaryNode α β) :
    inorder (BinaryNode.node k v l r) = inorder l ++ (k, v) :: inorder r := rfl

@[simp] lemma keysOf_null : keysOf (BinaryNode.null : BinaryNode α β) = [] := rfl

@[simp] lemma keysOf_node (k : α) (v : β) (l r : BinaryNode α β) :
    keysOf (BinaryNode.node k v l r) = keysOf l ++ k :: keysOf r := by
  simp [keysOf]

@[simp] lemma IsBST_null : IsBST (BinaryNode.null : BinaryNode α β) := trivial

lemma IsBST_node {k : α} {v : β} {l r : BinaryNode α β} :
    IsBST (BinaryNode.node k v l r) ↔
      (∀ x ∈ keysOf l, x < k) ∧ (∀ x ∈ keysOf r, k < x) ∧ IsBST l ∧ IsBST r :=
  Iff.rfl

lemma mem_keysOf_insertAux {d : α × β} {t : BinaryNode α β} {x : α} :
    x ∈ keysOf (insertAux d t).1 ↔ x ∈ keysOf t ∨ x = d.1 := by
  induction t with
  | null => simp [insertAux]
  | node k v l r ihl ihr =>
    rcases lt_trichotomy d.1 k with h | h | h
    · simp only [insertAux, if_pos h]
      simp only [keysOf_node, List.mem_append, List.mem_cons, ihl]
      tauto
    · have h1 : ¬ d.1 < k := by rw [h]; exact lt_irrefl k
      have h2 : ¬ k < d.1 := by rw [h]; exact lt_irrefl k
      simp only [insertAux, if_neg h1, if_neg h2, keysOf_node, List.mem_append,
        List.mem_cons]
      constructor
      · exact Or.inl
      · rintro (hx | rfl)
        · exact hx
        · exact Or.inr (Or.inl h)
    · simp only [insertAux, if_neg (lt_asymm h), if_pos h]
      simp only [keysOf_node, List.mem_append, List.mem_cons, ihr]
      tauto

lemma insertAux_IsBST {d : α × β} {t : BinaryNode α β} (h : IsBST t) :
    IsBST (insertAux d t).1 := by
  induction t with
  | null => simp [insertAux, IsBST]
  | node k v l r ihl ihr =>
    rcases h with ⟨hl, hr, bl, br⟩
    rcases lt_trichotomy d.1 k with h | h | h
    · simp only [insertAux, if_pos h]
      refine ⟨?_, hr, ihl bl, br⟩
      intro x hx
      rcases mem_keysOf_insertAux.mp hx with hx | rfl
      · exact hl x hx
      · exact h
    · simp only [insertAux, h, if_neg (lt_irrefl k)]
      exact ⟨hl, hr, bl, br⟩
    · simp only [insertAux, if_neg (lt_asymm h), if_pos h]
      refine ⟨hl, ?_, bl, ihr br⟩
      intro x hx
      rcases mem_keysOf_insertAux.mp hx with hx | rfl
      · exact hr x hx
      · exact h

lemma insertAux_snd (d : α × β) (t : BinaryNode α β) :
    (insertAux d t).2 = if (findNode d.1 t).isSome then 0 else 1 := by
  induction t with
  | null => simp [insertAux, findNode]
  | node k v l r ihl ihr =>
    rcases lt_trichotomy d.1 k with h | h | h
    · simp [insertAux, findNode, h, ihl]
    · simp [insertAux, findNode, h, lt_irrefl]
    · simp [insertAux, findNode, h, lt_asymm h, ihr]

lemma insertAux_present {d : α × β} {t : BinaryNode α β}
    (h : (findNode d.1 t).isSome) : insertAux d t = (t, 0) := by
  induction t with
  | null => simp [findNode] at h
  | node k v l r ihl ihr =>
    rcases lt_trichotomy d.1 k with hc | hc | hc
    · simp only [findNode, if_pos hc] at h
      simp [insertAux, hc, ihl h]
    · simp [insertAux, hc, lt_irrefl]
    · simp only [findNode, if_neg (lt_asymm hc), if_pos hc] at h
      simp [insertAux, hc, lt_asymm hc, ihr h]

lemma length_insertAux (d : α × β) (t : BinaryNode α β) :
    (inorder (insertAux d t).1).length = (inorder t).length + (insertAux d t).2 := by
  induction t with
  | null => simp [insertAux]
  | node k v l r ihl ihr =>
    rcases lt_trichotomy d.1 k with h | h | h
    · simp only [insertAux, if_pos h, inorder_node, List.length_append,
        List.length_cons] at ihl ⊢
      omega
    · simp [insertAux, h, lt_irrefl]
    · simp only [insertAux, if_neg (lt_asymm h), if_pos h, inorder_node,
        List.length_append, List.length_cons] at ihr ⊢
      omega

lemma mem_inorder_insertAux {d p : α × β} {t : BinaryNode α β}
    (h : p ∈ inorder t) : p ∈ inorder (insertAux d t).1 := by
  induction t with
  | null => simp at h
  | node k v l r ihl ihr =>
    rcases lt_trichotomy d.1 k with hc | hc | hc
    · simp only [insertAux, if_pos hc, inorder_node, List.mem_append, List.mem_cons]
      simp only [inorder_node, List.mem_append, List.mem_cons] at h
      tauto
    · simpa [insertAux, hc, lt_irrefl] using h
    · simp only [insertAux, if_neg (lt_asymm hc), if_pos hc, inorder_node,
        List.mem_append, List.mem_cons]
      simp only [inorder_node, List.mem_append, List.mem_cons] at h
      tauto

lemma self_mem_insertAux {d : α × β} {t : BinaryNode α β}
    (h : findNode d.1 t = none) : d ∈ inorder (insertAux d t).1 := by
  induction t with
  | null => simp [insertAux]
  | node k v l r ihl ihr =>
    rcases lt_trichotomy d.1 k with hc | hc | hc
    · simp only [findNode, if_pos hc] at h
      simp only [insertAux, if_pos hc, inorder_node, List.mem_append]
      exact Or.inl (ihl h)
    · simp only [findNode, hc, if_neg (lt_irrefl k)] at h
      exact (Option.some_ne_none _ h).elim
    · simp only [findNode, if_neg (lt_asymm hc), if_pos hc] at h
      simp only [insertAux, if_neg (lt_asymm hc), if_pos hc, inorder_node,
        List.mem_append, List.mem_cons]
      exact Or.inr (Or.inr (ihr h))

lemma inorder_eq_minDataD_cons (d : α × β) :
    ∀ t : BinaryNode α β, t ≠ .null → inorder t = minDataD d t :: (inorder t).tail := by
  intro t
  induction t with
  | null => intro h; exact absurd rfl h
  | node k v l r ihl ihr =>
    intro _
    cases l with
    | null => simp [minDataD]
    | node lk lv ll lr =>
      have hl := ihl (by simp)
      simp only [minDataD, inorder_node]
      rw [inorder_node] at hl
      rw [hl]
      simp

lemma minDataD_mem (d : α × β) {t : BinaryNode α β} (h : t ≠ .null) :
    minDataD d t ∈ inorder t := by
  rw [inorder_eq_minDataD_cons d t h]
  exact List.mem_cons_self _ _

lemma IsBST_iff_pairwise {t : BinaryNode α β} :
    IsBST t ↔ List.Pairwise (· < ·) (keysOf t) := by
  induction t with
  | null => simp
  | node k v l r ihl ihr =>
    rw [IsBST_node, keysOf_node, List.pairwise_append, List.pairwise_cons, ihl, ihr]
    constructor
    · rintro ⟨hl, hr, bl, br⟩
      refine ⟨bl, ⟨hr, br⟩, ?_⟩
      intro x hx y hy
      rcases List.mem_cons.mp hy with rfl | hy
      · exact hl x hx
      · exact lt_trans (hl x hx) (hr y hy)
    · rintro ⟨bl, ⟨hr, br⟩, hcross⟩
      exact ⟨fun x hx => hcross x hx k (List.mem_cons_self _ _), hr, bl, br⟩

lemma findNode_key {key : α} :
    ∀ {t n : BinaryNode α β}, findNode key t = some n →
      ∃ v l r, n = .node key v l r := by
  intro t
  induction t with
  | null => intro n h; simp [findNode] at h
  | node k v l r ihl ihr =>
    intro n h
    rcases lt_trichotomy key k with hc | hc | hc
    · rw [findNode, if_pos hc] at h
      exact ihl h
    · rw [findNode, if_neg (by rw [hc]; exact lt_irrefl k),
        if_neg (by rw [hc]; exact lt_irrefl k)] at h
      exact ⟨v, l, r, by rw [← Option.some_inj.mp h, hc]⟩
    · rw [findNode, if_neg (lt_asymm hc), if_pos hc] at h
      exact ihr h

lemma findNode_subtree_mem {key : α} :
    ∀ {t n : BinaryNode α β}, findNode key t = some n →
      ∀ p ∈ inorder n, p ∈ inorder t := by
  intro t
  induction t with
  | null => intro n h; simp [findNode] at h
  | node k v l r ihl ihr =>
    intro n h p hp
    rcases lt_trichotomy key k with hc | hc | hc
    · rw [findNode, if_pos hc] at h
      simp only [inorder_node, List.mem_append]
      exact Or.inl (ihl h p hp)
    · rw [findNode, if_neg (by rw [hc]; exact lt_irrefl k),
        if_neg (by rw [hc]; exact lt_irrefl k)] at h
      rw [← Option.some_inj.mp h] at hp
      exact hp
    · rw [findNode, if_neg (lt_asymm hc), if_pos hc] at h
      simp only [inorder_node, List.mem_append, List.mem_cons]
      exact Or.inr (Or.inr (ihr h p hp))

lemma findNode_IsBST {key : α} :
    ∀ {t n : BinaryNode α β}, IsBST t → findNode key t = some n → IsBST n := by
  intro t
  induction t with
  | null => intro n _ h; simp [findNode] at h
  | node k v l r ihl ihr =>
    intro n hb h
    rcases hb with ⟨hl, hr, bl, br⟩
    rcases lt_trichotomy key k with hc | hc | hc
    · rw [findNode, if_pos hc] at h
      exact ihl bl h
    · rw [findNode, if_neg (by rw [hc]; exact lt_irrefl k),
        if_neg (by rw [hc]; exact lt_irrefl k)] at h
      rw [← Option.some_inj.mp h]
      exact ⟨hl, hr, bl, br⟩
    · rw [findNode, if_neg (lt_asymm hc), if_pos hc] at h
      exact ihr br h

lemma findNode_isSome_iff {key : α} {t : BinaryNode α β} (h : IsBST t) :
    (findNode key t).isSome ↔ key ∈ keysOf t := by
  induction t with
  | null => simp [findNode]
  | node k v l r ihl ihr =>
    rcases h with ⟨hl, hr, bl, br⟩
    rcases lt_trichotomy key k with hc | hc | hc
    · rw [findNode, if_pos hc]
      simp only [keysOf_node, List.mem_append, List.mem_cons, ihl bl]
      constructor
      · exact Or.inl
      · rintro (hx | rfl | hx)
        · exact hx
        · exact absurd hc (lt_irrefl _)
        · exact absurd (lt_trans hc (hr key hx)) (lt_irrefl _)
    · rw [findNode, if_neg (by rw [hc]; exact lt_irrefl k),
        if_neg (by rw [hc]; exact lt_irrefl k)]
      simp [hc]
    · rw [findNode, if_neg (lt_asymm hc), if_pos hc]
      simp only [keysOf_node, List.mem_append, List.mem_cons, ihr br]
      constructor
      · intro hx; exact Or.inr (Or.inr hx)
      · rintro (hx | rfl | hx)
        · exact absurd (lt_trans hc (hl key hx)) (lt_irrefl _)
        · exact absurd hc (lt_irrefl _)
        · exact hx

lemma findData_iff {key : α} {p : α × β} {t : BinaryNode α β} (h : IsBST t) :
    findData key t = some p ↔ p ∈ inorder t ∧ p.1 = key := by
  induction t with
  | null => simp [findData, findNode]
  | node k v l r ihl ihr =>
    rcases h with ⟨hl, hr, bl, br⟩
    rcases lt_trichotomy key k with hc | hc | hc
    · rw [findData, findNode, if_pos hc, ← findData, ihl bl]
      simp only [inorder_node, List.mem_append, List.mem_cons]
      constructor
      · rintro ⟨hp, hk⟩
        exact ⟨Or.inl hp, hk⟩
      · rintro ⟨hp | hp | hp, hk⟩
        · exact ⟨hp, hk⟩
        · exfalso
          have hpk : p.1 = k := by rw [hp]
          rw [hpk] at hk
          rw [hk] at hc
          exact lt_irrefl _ hc
        · exfalso
          have hm : p.1 ∈ keysOf r := List.mem_map_of_mem Prod.fst hp
          have hgt := hr p.1 hm
          rw [hk] at hgt
          exact lt_irrefl _ (lt_trans hc hgt)
    · have e1 : ¬ key < k := by rw [hc]; exact lt_irrefl k
      have e2 : ¬ k < key := by rw [hc]; exact lt_irrefl k
      rw [findData, findNode, if_neg e1, if_neg e2]
      have hb : (some (BinaryNode.node k v l r)).bind dataOf = some (k, v) := rfl
      rw [hb]
      simp only [inorder_node, List.mem_append, List.mem_cons, Option.some_inj]
      constructor
      · rintro rfl
        exact ⟨Or.inr (Or.inl rfl), hc.symm⟩
      · rintro ⟨hp | hp | hp, hk⟩
        · exfalso
          have hm : p.1 ∈ keysOf l := List.mem_map_of_mem Prod.fst hp
          have hlt := hl p.1 hm
          rw [hk, hc] at hlt
          exact lt_irrefl _ hlt
        · rw [hp]
        · exfalso
          have hm : p.1 ∈ keysOf r := List.mem_map_of_mem Prod.fst hp
          have hgt := hr p.1 hm
          rw [hk, hc] at hgt
          exact lt_irrefl _ hgt
    · rw [findData, findNode, if_neg (lt_asymm hc), if_pos hc, ← findData, ihr br]
      simp only [inorder_node, List.mem_append, List.mem_cons]
      constructor
      · rintro ⟨hp, hk⟩
        exact ⟨Or.inr (Or.inr hp), hk⟩
      · rintro ⟨hp | hp | hp, hk⟩
        · exfalso
          have hm : p.1 ∈ keysOf l := List.mem_map_of_mem Prod.fst hp
          have hlt := hl p.1 hm
          rw [hk] at hlt
          exact lt_irrefl _ (lt_trans hc hlt)
        · exfalso
          have hpk : p.1 = k := by rw [hp]
          rw [hpk] at hk
          rw [hk] at hc
          exact lt_irrefl _ hc
        · exact ⟨hp, hk⟩

lemma eraseAux_lt {key k : α} {v : β} {l r : BinaryNode α β} (h : key < k) :
    eraseAux key (BinaryNode.node k v l r) =
      (.node k v (eraseAux key l).1 r, (eraseAux key l).2) := by
  rw [eraseAux.eq_def]
  simp [h]

lemma eraseAux_gt {key k : α} {v : β} {l r : BinaryNode α β} (h : k < key) :
    eraseAux key (BinaryNode.node k v l r) =
      (.node k v l (eraseAux key r).1, (eraseAux key r).2) := by
  rw [eraseAux.eq_def]
  simp [h, lt_asymm h]

lemma eraseAux_eq_null_left {key k : α} {v : β} {r : BinaryNode α β}
    (h1 : ¬ key < k) (h2 : ¬ k < key) :
    eraseAux key (BinaryNode.node k v .null r) = (r, 1) := by
  rw [eraseAux.eq_def]
  simp [h1, h2]

lemma eraseAux_eq_null_right {key k : α} {v : β} {lk : α} {lv : β}
    {ll lr : BinaryNode α β} (h1 : ¬ key < k) (h2 : ¬ k < key) :
    eraseAux key (BinaryNode.node k v (.node lk lv ll lr) .null) =
      (.node lk lv ll lr, 1) := by
  rw [eraseAux.eq_def]
  simp [h1, h2]

lemma eraseAux_eq_two {key k : α} {v : β} {lk : α} {lv : β} {ll lr : BinaryNode α β}
    {rk : α} {rv : β} {rl rr : BinaryNode α β} (h1 : ¬ key < k) (h2 : ¬ k < key) :
    eraseAux key (BinaryNode.node k v (.node lk lv ll lr) (.node rk rv rl rr)) =
      (.node (minDataD (k, v) (.node rk rv rl rr)).1
             (minDataD (k, v) (.node rk rv rl rr)).2
             (.node lk lv ll lr)
             (eraseAux (minDataD (k, v) (.node rk rv rl rr)).1 (.node rk rv rl rr)).1,
       (eraseAux (minDataD (k, v) (.node rk rv rl rr)).1 (.node rk rv rl rr)).2) := by
  rw [eraseAux.eq_def]
  simp [h1, h2]

lemma eraseAux_absent {key : α} :
    ∀ {t : BinaryNode α β}, findNode key t = none → eraseAux key t = (t, 0) := by
  intro t
  induction t with
  | null => intro _; rfl
  | node k v l r ihl ihr =>
    intro h
    rcases lt_trichotomy key k with hc | hc | hc
    · rw [findNode, if_pos hc] at h
      rw [eraseAux_lt hc, ihl h]
    · rw [findNode, if_neg (by rw [hc]; exact lt_irrefl k),
        if_neg (by rw [hc]; exact lt_irrefl k)] at h
      exact (Option.some_ne_none _ h).elim
    · rw [findNode, if_neg (lt_asymm hc), if_pos hc] at h
      rw [eraseAux_gt hc, ihr h]

lemma length_eraseAux :
    ∀ (t : BinaryNode α β) (key : α),
      (inorder t).length = (inorder (eraseAux key t).1).length + (eraseAux key t).2 := by
  intro t
  induction t with
  | null => intro key; rfl
  | node k v l r ihl ihr =>
    intro key
    rcases lt_trichotomy key k with hc | hc | hc
    · have h := ihl key
      rw [eraseAux_lt hc]
      simp only [inorder_node, List.length_append, List.length_cons]
      omega
    · have e1 : ¬ key < k := by rw [hc]; exact lt_irrefl k
      have e2 : ¬ k < key := by rw [hc]; exact lt_irrefl k
      cases l with
      | null =>
        rw [eraseAux_eq_null_left e1 e2]
        simp only [inorder_node, inorder_null, List.nil_append, List.length_append,
          List.length_cons, List.length_nil]
      | node lk lv ll lr =>
        cases r with
        | null =>
          rw [eraseAux_eq_null_right e1 e2]
          simp only [inorder_node, inorder_null, List.nil_append, List.length_append,
            List.length_cons, List.length_nil]
        | node rk rv rl rr =>
          rw [eraseAux_eq_two e1 e2]
          have h := ihr (minDataD (k, v) (BinaryNode.node rk rv rl rr)).1
          simp only [inorder_node, List.length_append, List.length_cons] at h ⊢
          omega
    · have h := ihr key
      rw [eraseAux_gt hc]
      simp only [inorder_node, List.length_append, List.length_cons]
      omega

lemma filter_ne_of_forall {key : α} {xs : List (α × β)} (h : ∀ q ∈ xs, q.1 ≠ key) :
    xs.filter (fun q => q.1 ≠ key) = xs := by
  apply List.filter_eq_self.mpr
  intro a ha
  simpa using h a ha

lemma eraseAux_inorder :
    ∀ {t : BinaryNode α β}, IsBST t → ∀ key,
      inorder (eraseAux key t).1 = (inorder t).filter (fun q => q.1 ≠ key) := by
  intro t
  induction t with
  | null => intro _ key; rfl
  | node k v l r ihl ihr =>
    rintro ⟨hl, hr, bl, br⟩ key
    rcases lt_trichotomy key k with hc | hc | hc
    · rw [eraseAux_lt hc]
      simp only [inorder_node, List.filter_append, List.filter_cons]
      rw [ihl bl key]
      have h1 : ((k, v).1 ≠ key) := ne_of_gt hc
      have h2 : (inorder r).filter (fun q => decide (q.1 ≠ key)) = inorder r := by
        apply filter_ne_of_forall
        intro q hq
        exact ne_of_gt (lt_trans hc (hr q.1 (List.mem_map_of_mem Prod.fst hq)))
      rw [if_pos (decide_eq_true h1), h2]
    · have e1 : ¬ key < k := by rw [hc]; exact lt_irrefl k
      have e2 : ¬ k < key := by rw [hc]; exact lt_irrefl k
      have hdrop : ¬ ((k, v).1 ≠ key) := by
        simp only [ne_eq, not_not]
        exact hc.symm
      have hkeep_r : (inorder r).filter (fun q => decide (q.1 ≠ key)) = inorder r := by
        apply filter_ne_of_forall
        intro q hq
        have hgt := hr q.1 (List.mem_map_of_mem Prod.fst hq)
        rw [← hc] at hgt
        exact ne_of_gt hgt
      cases l with
      | null =>
        rw [eraseAux_eq_null_left e1 e2]
        simp only [inorder_node, inorder_null, List.nil_append, List.filter_cons]
        rw [if_neg (fun hcond => hdrop (of_decide_eq_true hcond)), hkeep_r]
      | node lk lv ll lr =>
        have hkeep_l :
            (inorder (BinaryNode.node lk lv ll lr)).filter
              (fun q => decide (q.1 ≠ key)) = inorder (BinaryNode.node lk lv ll lr) := by
          apply filter_ne_of_forall
          intro q hq
          have hlt := hl q.1 (List.mem_map_of_mem Prod.fst hq)
          rw [← hc] at hlt
          exact ne_of_lt hlt
        cases r with
        | null =>
          rw [eraseAux_eq_null_right e1 e2]
          have hout :
              inorder (BinaryNode.node k v (BinaryNode.node lk lv ll lr) BinaryNode.null)
                = inorder (BinaryNode.node lk lv ll lr) ++ [(k, v)] := rfl
          rw [hout, List.filter_append, hkeep_l, List.filter_cons,
            if_neg (fun hcond => hdrop (of_decide_eq_true hcond)),
            List.filter_nil, List.append_nil]
        | node rk rv rl rr =>
          rw [eraseAux_eq_two e1 e2]
          set rr2 := BinaryNode.node rk rv rl rr with hrr
          set m := minDataD (k, v) rr2 with hm
          have hmin : inorder rr2 = m :: (inorder rr2).tail :=
            inorder_eq_minDataD_cons (k, v) rr2 (by rw [hrr]; simp)
          have hpw : List.Pairwise (· < ·) (keysOf rr2) := IsBST_iff_pairwise.mp br
          have htail : ∀ q ∈ (inorder rr2).tail, m.1 < q.1 := by
            intro q hq
            have hk2 : keysOf rr2 = m.1 :: ((inorder rr2).tail.map Prod.fst) := by
              rw [keysOf, hmin]
              rfl
            rw [hk2] at hpw
            exact (List.pairwise_cons.mp hpw).1 q.1 (List.mem_map_of_mem Prod.fst hq)
          have herased : inorder (eraseAux m.1 rr2).1 = (inorder rr2).tail := by
            rw [ihr br m.1, hmin, List.filter_cons]
            have hd : ¬ (m.1 ≠ m.1) := fun hne => hne rfl
            simp only [hd, decide_False]
            apply filter_ne_of_forall
            intro q hq
            exact ne_of_gt (htail q hq)
          have hout : inorder (BinaryNode.node k v (BinaryNode.node lk lv ll lr) rr2)
              = inorder (BinaryNode.node lk lv ll lr) ++ (k, v) :: inorder rr2 := rfl
          rw [hout, List.filter_append, hkeep_l, List.filter_cons,
            if_neg (fun hcond => hdrop (of_decide_eq_true hcond)), hkeep_r, hmin]
          show inorder (BinaryNode.node lk lv ll lr) ++
                (m.1, m.2) :: inorder (eraseAux m.1 rr2).1
              = inorder (BinaryNode.node lk lv ll lr) ++ m :: (inorder rr2).tail
          rw [herased]
    · rw [eraseAux_gt hc]
      simp only [inorder_node, List.filter_append, List.filter_cons]
      rw [ihr br key]
      have h1 : ((k, v).1 ≠ key) := ne_of_lt hc
      have h2 : (inorder l).filter (fun q => decide (q.1 ≠ key)) = inorder l := by
        apply filter_ne_of_forall
        intro q hq
        exact ne_of_lt (lt_trans (hl q.1 (List.mem_map_of_mem Prod.fst hq)) hc)
      rw [if_pos (decide_eq_true h1), h2]

lemma eraseAux_snd :
    ∀ {t : BinaryNode α β}, IsBST t → ∀ key,
      (eraseAux key t).2 = if (findNode key t).isSome then 1 else 0 := by
  intro t
  induction t with
  | null => intro _ key; rfl
  | node k v l r ihl ihr =>
    rintro ⟨hl, hr, bl, br⟩ key
    rcases lt_trichotomy key k with hc | hc | hc
    · rw [eraseAux_lt hc, findNode, if_pos hc]
      exact ihl bl key
    · have e1 : ¬ key < k := by rw [hc]; exact lt_irrefl k
      have e2 : ¬ k < key := by rw [hc]; exact lt_irrefl k
      have hsome : (findNode key (BinaryNode.node k v l r)).isSome = true := by
        rw [findNode, if_neg e1, if_neg e2]
        rfl
      rw [if_pos hsome]
      cases l with
      | null => rw [eraseAux_eq_null_left e1 e2]
      | node lk lv ll lr =>
        cases r with
        | null => rw [eraseAux_eq_null_right e1 e2]
        | node rk rv rl rr =>
          rw [eraseAux_eq_two e1 e2]
          have hmem : minDataD (k, v) (BinaryNode.node rk rv rl rr)
              ∈ inorder (BinaryNode.node rk rv rl rr) :=
            minDataD_mem _ (by simp)
          have hfind : (findNode (minDataD (k, v) (BinaryNode.node rk rv rl rr)).1
              (BinaryNode.node rk rv rl rr)).isSome = true := by
            rw [findNode_isSome_iff br]
            exact List.mem_map_of_mem Prod.fst hmem
          show (eraseAux (minDataD (k, v) (BinaryNode.node rk rv rl rr)).1
              (BinaryNode.node rk rv rl rr)).2 = 1
          rw [ihr br, if_pos hfind]
    · rw [eraseAux_gt hc, findNode, if_neg (lt_asymm hc), if_pos hc]
      exact ihr br key

lemma eraseAux_IsBST {t : BinaryNode α β} (h : IsBST t) (key : α) :
    IsBST (eraseAux key t).1 := by
  have hp := IsBST_iff_pairwise.mp h
  rw [IsBST_iff_pairwise, keysOf, eraseAux_inorder h key]
  exact List.Pairwise.sublist (List.Sublist.map Prod.fst (List.filter_sublist _)) hp

/-- Master invariant: every reachable tree satisfies the BST ordering
invariant and its `m_Size` equals the length of its in-order traversal. -/
lemma reach_inv {s : BinarySearchTree α β} (h : Reachable s) :
    IsBST s.m_Root ∧ s.m_Size = (inorder s.m_Root).length := by
  induction h with
  | empty => exact ⟨trivial, rfl⟩
  | init d => exact ⟨⟨by simp, by simp, trivial, trivial⟩, rfl⟩
  | @insert s d hs ih =>
    rcases ih with ⟨hb, hlen⟩
    refine ⟨insertAux_IsBST hb, ?_⟩
    show s.m_Size + (insertAux d s.m_Root).2 = (inorder (insertAux d s.m_Root).1).length
    rw [length_insertAux, hlen]
  | @erase s key hs ih =>
    rcases ih with ⟨hb, hlen⟩
    refine ⟨eraseAux_IsBST hb key, ?_⟩
    show s.m_Size - (eraseAux key s.m_Root).2 = (inorder (eraseAux key s.m_Root).1).length
    have hle := length_eraseAux s.m_Root key
    omega
  | clear hs ih => exact ⟨trivial, rfl⟩

lemma insert_present_noop {s : BinarySearchTree α β} {k : α} (v2 : β)
    (hp : (findNode k s.m_Root).isSome) : s.Insert (k, v2) = s := by
  have h0 : insertAux (k, v2) s.m_Root = (s.m_Root, 0) := insertAux_present hp
  show (⟨(insertAux (k, v2) s.m_Root).1,
    s.m_Size + (insertAux (k, v2) s.m_Root).2⟩ : BinarySearchTree α β) = s
  rw [h0]
  rfl

lemma erase_absent_noop {s : BinarySearchTree α β} {k : α}
    (hnone : findNode k s.m_Root = none) : s.Erase k = s := by
  show (⟨(eraseAux k s.m_Root).1,
    s.m_Size - (eraseAux k s.m_Root).2⟩ : BinarySearchTree α β) = s
  rw [eraseAux_absent hnone]
  rfl

lemma applyOps_size_account :
    ∀ (ops : List (Op α β)) (s : BinarySearchTree α β),
      IsBST s.m_Root → s.m_Size = (inorder s.m_Root).length →
      (applyOps s ops).m_Size + (effCounts s ops).2
        = s.m_Size + (effCounts s ops).1 := by
  intro ops
  induction ops with
  | nil => intro s _ _; rfl
  | cons op rest ih =>
    intro s hb hlen
    cases op with
    | ins d =>
      have hApp : applyOps s (Op.ins d :: rest) = applyOps (s.Insert d) rest := rfl
      have hEff : effCounts s (Op.ins d :: rest) =
          (if (findNode d.1 s.m_Root).isSome then effCounts (s.Insert d) rest
           else ((effCounts (s.Insert d) rest).1 + 1,
                 (effCounts (s.Insert d) rest).2)) := rfl
      rw [hApp, hEff]
      by_cases hp : (findNode d.1 s.m_Root).isSome
      · rw [if_pos hp]
        have hins : s.Insert d = s := insert_present_noop d.2 hp
        rw [hins]
        exact ih s hb hlen
      · rw [if_neg hp]
        have h2 : (insertAux d s.m_Root).2 = 1 := by
          rw [insertAux_snd, if_neg hp]
        have hb2 : IsBST (s.Insert d).m_Root := insertAux_IsBST hb
        have hlen2 : (s.Insert d).m_Size = (inorder (s.Insert d).m_Root).length := by
          show s.m_Size + (insertAux d s.m_Root).2
              = (inorder (insertAux d s.m_Root).1).length
          rw [length_insertAux, hlen]
        have hrec := ih (s.Insert d) hb2 hlen2
        have hsz : (s.Insert d).m_Size = s.m_Size + 1 := by
          show s.m_Size + (insertAux d s.m_Root).2 = s.m_Size + 1
          rw [h2]
        omega
    | del key =>
      have hApp : applyOps s (Op.del key :: rest) = applyOps (s.Erase key) rest := rfl
      have hEff : effCounts s (Op.del key :: rest) =
          (if (findNode key s.m_Root).isSome then
             ((effCounts (s.Erase key) rest).1,
              (effCounts (s.Erase key) rest).2 + 1)
           else effCounts (s.Erase key) rest) := rfl
      rw [hApp, hEff]
      have hb2 : IsBST (s.Erase key).m_Root := eraseAux_IsBST hb key
      have hlen2 : (s.Erase key).m_Size = (inorder (s.Erase key).m_Root).length := by
        show s.m_Size - (eraseAux key s.m_Root).2
            = (inorder (eraseAux key s.m_Root).1).length
        have hle := length_eraseAux s.m_Root key
        omega
      have hrec := ih (s.Erase key) hb2 hlen2
      by_cases hp : (findNode key s.m_Root).isSome
      · rw [if_pos hp]
        have h2 : (eraseAux key s.m_Root).2 = 1 := by
          rw [eraseAux_snd hb, if_pos hp]
        have hsz : (s.Erase key).m_Size = s.m_Size - 1 := by
          show s.m_Size - (eraseAux key s.m_Root).2 = s.m_Size - 1
          rw [h2]
        have hk : key ∈ keysOf s.m_Root := (findNode_isSome_iff hb).mp hp
        have hpos : 0 < (keysOf s.m_Root).length :=
          List.length_pos.mpr (List.ne_nil_of_mem hk)
        rw [keysOf, List.length_map] at hpos
        omega
      · rw [if_neg hp]
        have hnone : findNode key s.m_Root = none := by
          rcases hfn : findNode key s.m_Root with _ | n
          · rfl
          · rw [hfn] at hp
            exact absurd rfl hp
        have herase : s.Erase key = s := erase_absent_noop hnone
        rw [herase] at hrec ⊢
        exact hrec

lemma findNode_none_of_not_mem {key : α} :
    ∀ {t : BinaryNode α β}, key ∉ keysOf t → findNode key t = none := by
  intro t
  induction t with
  | null => intro _; rfl
  | node k v l r ihl ihr =>
    intro h
    simp only [keysOf_node, List.mem_append, List.mem_cons, not_or] at h
    rcases lt_trichotomy key k with hc | hc | hc
    · rw [findNode, if_pos hc]
      exact ihl h.1
    · exact absurd hc h.2.1
    · rw [findNode, if_neg (lt_asymm hc), if_pos hc]
      exact ihr h.2.2

lemma erase_found_find :
    ∀ {t : BinaryNode α β}, IsBST t → ∀ {k : α} {v : β} {l r : BinaryNode α β},
      findNode k t = some (BinaryNode.node k v l r) → l ≠ .null → r ≠ .null →
      findNode (minDataD (k, v) r).1 (eraseAux k t).1
        = some (BinaryNode.node (minDataD (k, v) r).1 (minDataD (k, v) r).2 l
            (eraseAux (minDataD (k, v) r).1 r).1) := by
  intro t
  induction t with
  | null =>
    intro _ k v l r hfind _ _
    simp [findNode] at hfind
  | node tk tv tl tr ihl ihr =>
    rintro ⟨hbl, hbr, btl, btr⟩ k v l r hfind hl0 hr0
    rcases lt_trichotomy k tk with hc | hc | hc
    · rw [findNode, if_pos hc] at hfind
      have hmem : minDataD (k, v) r ∈ inorder tl := by
        apply findNode_subtree_mem hfind
        simp only [inorder_node, List.mem_append]
        exact Or.inr (List.mem_cons_of_mem _ (minDataD_mem (k, v) hr0))
      have hm1 : (minDataD (k, v) r).1 < tk :=
        hbl _ (List.mem_map_of_mem Prod.fst hmem)
      rw [eraseAux_lt hc]
      show findNode (minDataD (k, v) r).1
          (BinaryNode.node tk tv (eraseAux k tl).1 tr) = _
      rw [findNode, if_pos hm1]
      exact ihl btl hfind hl0 hr0
    · have e1 : ¬ k < tk := by rw [hc]; exact lt_irrefl tk
      have e2 : ¬ tk < k := by rw [hc]; exact lt_irrefl tk
      rw [findNode, if_neg e1, if_neg e2] at hfind
      injection Option.some_inj.mp hfind with q1 q2 q3 q4
      subst q2
      subst q3
      subst q4
      subst q1
      cases tl with
      | null => exact absurd rfl hl0
      | node lk lv ll lr =>
        cases tr with
        | null => exact absurd rfl hr0
        | node rk rv rl rr =>
          rw [eraseAux_eq_two e1 e2]
          have hgoal : ∀ (a : α) (b : β) (L R : BinaryNode α β),
              findNode a (BinaryNode.node a b L R)
                = some (BinaryNode.node a b L R) := by
            intro a b L R
            rw [findNode, if_neg (lt_irrefl a), if_neg (lt_irrefl a)]
          exact hgoal _ _ _ _
    · rw [findNode, if_neg (lt_asymm hc), if_pos hc] at hfind
      have hmem : minDataD (k, v) r ∈ inorder tr := by
        apply findNode_subtree_mem hfind
        simp only [inorder_node, List.mem_append]
        exact Or.inr (List.mem_cons_of_mem _ (minDataD_mem (k, v) hr0))
      have hm1 : tk < (minDataD (k, v) r).1 :=
        hbr _ (List.mem_map_of_mem Prod.fst hmem)
      rw [eraseAux_gt hc]
      show findNode (minDataD (k, v) r).1
          (BinaryNode.node tk tv tl (eraseAux k tr).1) = _
      rw [findNode, if_neg (lt_asymm hm1), if_pos hm1]
      exact ihr btr hfind hl0 hr0

lemma Find_eq_findData (s : BinarySearchTree α β) (k : α) :
    s.Find k = (findData k s.m_Root).map Prod.snd := by
  rw [BinarySearchTree.Find, findData]
  cases findNode k s.m_Root <;> rfl

lemma findData_some_isSome {key : α} {t : BinaryNode α β} {p : α × β}
    (h : findData key t = some p) : (findNode key t).isSome = true := by
  rw [findData] at h
  rcases hfn : findNode key t with _ | n
  · rw [hfn] at h
    exact absurd h (by simp)
  · rfl

lemma mem_applyOps_avoid :
    ∀ (ops : List (Op α β)) (s : BinarySearchTree α β) {k : α} {v : β},
      IsBST s.m_Root → (k, v) ∈ inorder s.m_Root →
      (∀ op ∈ ops, OpAvoids k op) →
      IsBST (applyOps s ops).m_Root ∧ (k, v) ∈ inorder (applyOps s ops).m_Root := by
  intro ops
  induction ops with
  | nil =>
    intro s k v hb hm _
    exact ⟨hb, hm⟩
  | cons op rest ih =>
    intro s k v hb hm havoid
    have hop := havoid op (List.mem_cons_self _ _)
    have htail : ∀ op2 ∈ rest, OpAvoids k op2 :=
      fun op2 h2 => havoid op2 (List.mem_cons_of_mem _ h2)
    cases op with
    | ins d =>
      have hb2 : IsBST (s.Insert d).m_Root := insertAux_IsBST hb
      have hm2 : (k, v) ∈ inorder (s.Insert d).m_Root := mem_inorder_insertAux hm
      exact ih (s.Insert d) hb2 hm2 htail
    | del key =>
      have hne : key ≠ k := hop
      have hb2 : IsBST (s.Erase key).m_Root := eraseAux_IsBST hb key
      have hm2 : (k, v) ∈ inorder (s.Erase key).m_Root := by
        show (k, v) ∈ inorder (eraseAux key s.m_Root).1
        rw [eraseAux_inorder hb key, List.mem_filter]
        exact ⟨hm, decide_eq_true (Ne.symm hne)⟩
      exact ih (s.Erase key) hb2 hm2 htail

/-- C2: two-child erase promotes the in-order successor: if key `k` sits at
a node with two children, `Erase k` keeps the BST invariant, decrements the
size by exactly one, and the node at `k`'s position now carries the pair of
the minimum of the original right subtree, with that successor key erased
from the right subtree exactly once. -/
theorem C2_two_child_erase (s : BinarySearchTree α β) (k : α) (v : β)
    (l r : BinaryNode α β) (h : IsBST s.m_Root)
    (hfind : findNode k s.m_Root = some (BinaryNode.node k v l r))
    (hl : l ≠ .null) (hr : r ≠ .null) :
    IsBST (s.Erase k).m_Root ∧
      (s.Erase k).m_Size = s.m_Size - 1 ∧
      (eraseAux k s.m_Root).2 = 1 ∧
      findNode (minDataD (k, v) r).1 (s.Erase k).m_Root
        = some (BinaryNode.node (minDataD (k, v) r).1 (minDataD (k, v) r).2 l
            (eraseAux (minDataD (k, v) r).1 r).1) ∧
      (eraseAux (minDataD (k, v) r).1 r).2 = 1 := by
  have hsome : (findNode k s.m_Root).isSome = true := by rw [hfind]; rfl
  have h2 : (eraseAux k s.m_Root).2 = 1 := by rw [eraseAux_snd h, if_pos hsome]
  have hsub : IsBST (BinaryNode.node k v l r) := findNode_IsBST h hfind
  have hbr : IsBST r := hsub.2.2.2
  have hm_mem : (minDataD (k, v) r).1 ∈ keysOf r :=
    List.mem_map_of_mem Prod.fst (minDataD_mem (k, v) hr)
  have hrs : (findNode (minDataD (k, v) r).1 r).isSome = true :=
    (findNode_isSome_iff hbr).mpr hm_mem
  refine ⟨eraseAux_IsBST h k, ?_, h2, ?_, ?_⟩
  · show s.m_Size - (eraseAux k s.m_Root).2 = s.m_Size - 1
    rw [h2]
  · exact erase_found_find h hfind hl hr
  · rw [eraseAux_snd hbr, if_pos hrs]

/-- Witness for C2: erasing key 2 (a node with two children) from the tree
`{1, 2, 3}`; its in-order successor is key 3. -/
theorem C2_two_child_erase_witness :
    IsBST ((((BinarySearchTree.empty.Insert ((2 : Int), (20 : Int))).Insert
        (1, 10)).Insert (3, 30)).Erase 2).m_Root ∧
      ((((BinarySearchTree.empty.Insert ((2 : Int), (20 : Int))).Insert
        (1, 10)).Insert (3, 30)).Erase 2).m_Size
        = (((BinarySearchTree.empty.Insert ((2 : Int), (20 : Int))).Insert
          (1, 10)).Insert (3, 30)).m_Size - 1 ∧
      (eraseAux 2 ((((BinarySearchTree.empty.Insert ((2 : Int), (20 : Int))).Insert
        (1, 10)).Insert (3, 30))).m_Root).2 = 1 ∧
      findNode (minDataD ((2 : Int), (20 : Int))
          (BinaryNode.node 3 30 .null .null)).1
        ((((BinarySearchTree.empty.Insert ((2 : Int), (20 : Int))).Insert
          (1, 10)).Insert (3, 30)).Erase 2).m_Root
        = some (BinaryNode.node
            (minDataD ((2 : Int), (20 : Int)) (BinaryNode.node 3 30 .null .null)).1
            (minDataD ((2 : Int), (20 : Int)) (BinaryNode.node 3 30 .null .null)).2
            (BinaryNode.node 1 10 .null .null)
            (eraseAux (minDataD ((2 : Int), (20 : Int))
                (BinaryNode.node 3 30 .null .null)).1
              (BinaryNode.node 3 30 .null .null)).1) ∧
      (eraseAux (minDataD ((2 : Int), (20 : Int))
          (BinaryNode.node 3 30 .null .null)).1
        (BinaryNode.node 3 30 .null .null)).2 = 1 :=
  C2_two_child_erase
    (((BinarySearchTree.empty.Insert ((2 : Int), (20 : Int))).Insert
      (1, 10)).Insert (3, 30))
    2 20 (BinaryNode.node 1 10 .null .null) (BinaryNode.node 3 30 .null .null)
    (by decide) (by decide) (by decide) (by decide)

/-- C5: round trip: after inserting `(k, v)` with `k` absent, `Contains k`
is true and `Find k` yields `v`; this persists under any operation sequence
that neither erases nor re-inserts `k`; erasing `k` afterwards makes
`Contains k` false. -/
theorem C5_round_trip (s : BinarySearchTree α β) (k : α) (v : β)
    (ops : List (Op α β)) (h : IsBST s.m_Root)
    (habs : findNode k s.m_Root = none) (havoid : ∀ op ∈ ops, OpAvoids k op) :
    (s.Insert (k, v)).Contains k = true ∧
      (s.Insert (k, v)).Find k = some v ∧
      (applyOps (s.Insert (k, v)) ops).Contains k = true ∧
      (applyOps (s.Insert (k, v)) ops).Find k = some v ∧
      ((applyOps (s.Insert (k, v)) ops).Erase k).Contains k = false := by
  have hb1 : IsBST (s.Insert (k, v)).m_Root := insertAux_IsBST h
  have hm1 : (k, v) ∈ inorder (s.Insert (k, v)).m_Root := self_mem_insertAux habs
  have hfd1 : findData k (s.Insert (k, v)).m_Root = some (k, v) :=
    (findData_iff hb1).mpr ⟨hm1, rfl⟩
  have hpersist := mem_applyOps_avoid ops (s.Insert (k, v)) hb1 hm1 havoid
  have hfd2 : findData k (applyOps (s.Insert (k, v)) ops).m_Root = some (k, v) :=
    (findData_iff hpersist.1).mpr ⟨hpersist.2, rfl⟩
  refine ⟨findData_some_isSome hfd1, ?_, findData_some_isSome hfd2, ?_, ?_⟩
  · rw [Find_eq_findData, hfd1]
    rfl
  · rw [Find_eq_findData, hfd2]
    rfl
  · show (findNode k ((applyOps (s.Insert (k, v)) ops).Erase k).m_Root).isSome = false
    have hnotmem : k ∉ keysOf ((applyOps (s.Insert (k, v)) ops).Erase k).m_Root := by
      rw [keysOf]
      intro hmem
      rcases List.mem_map.mp hmem with ⟨p, hp, hp1⟩
      have hp2 : p ∈ inorder (eraseAux k (applyOps (s.Insert (k, v)) ops).m_Root).1 := hp
      rw [eraseAux_inorder hpersist.1 k] at hp2
      exact (of_decide_eq_true (List.mem_filter.mp hp2).2) hp1
    rw [findNode_none_of_not_mem hnotmem]
    rfl

/-- Witness for C5: insert key 2 into `{1}`, run `[ins (3,30), del 1]`
(which avoids key 2), then erase key 2. -/
theorem C5_round_trip_witness :
    ((BinarySearchTree.empty.Insert ((1 : Int), (10 : Int))).Insert
        (2, 20)).Contains 2 = true ∧
      ((BinarySearchTree.empty.Insert ((1 : Int), (10 : Int))).Insert
        (2, 20)).Find 2 = some 20 ∧
      (applyOps ((BinarySearchTree.empty.Insert ((1 : Int), (10 : Int))).Insert
        (2, 20)) [Op.ins (3, 30), Op.del 1]).Contains 2 = true ∧
      (applyOps ((BinarySearchTree.empty.Insert ((1 : Int), (10 : Int))).Insert
        (2, 20)) [Op.ins (3, 30), Op.del 1]).Find 2 = some 20 ∧
      ((applyOps ((BinarySearchTree.empty.Insert ((1 : Int), (10 : Int))).Insert
        (2, 20)) [Op.ins (3, 30), Op.del 1]).Erase 2).Contains 2 = false :=
  C5_round_trip (BinarySearchTree.empty.Insert ((1 : Int), (10 : Int))) 2 20
    [Op.ins (3, 30), Op.del 1] (by decide) (by decide)
    (by
      intro op hop
      rcases List.mem_cons.mp hop with rfl | hop
      · show (3 : Int) ≠ 2
        decide
      rcases List.mem_cons.mp hop with rfl | hop
      · show (1 : Int) ≠ 2
        decide
      · exact absurd hop (List.not_mem_nil op))

lemma bfsLoop_nil_nil : bfsLoop ([] : List (BinaryNode α β)) [] = [Out.nl] := by
  rw [bfsLoop.eq_def]

lemma bfsLoop_nil_cons (t : BinaryNode α β) (next : List (BinaryNode α β)) :
    bfsLoop [] (t :: next) = Out.nl :: bfsLoop (t :: next) [] := by
  rw [bfsLoop.eq_def]

lemma bfsLoop_null_cons (cur next : List (BinaryNode α β)) :
    bfsLoop (.null :: cur) next = bfsLoop cur next := by
  rw [bfsLoop.eq_def]

lemma bfsLoop_node_cons (k : α) (v : β) (l r : BinaryNode α β)
    (cur next : List (BinaryNode α β)) :
    bfsLoop (.node k v l r :: cur) next
      = Out.val v :: bfsLoop cur (next ++ childList (BinaryNode.node k v l r)) := by
  rw [bfsLoop.eq_def]

lemma linesOf_cons (t : BinaryNode α β) (ts : List (BinaryNode α β)) :
    linesOf (t :: ts)
      = ((t :: ts).flatMap rootVals) :: linesOf ((t :: ts).flatMap childList) := by
  rw [linesOf.eq_def]

lemma linesJoin_cons (a : List β) (ls : List (List β)) :
    linesJoin (a :: ls) = (a.map Out.val ++ [Out.nl]) ++ linesJoin ls := rfl

lemma childList_ne_null : ∀ {t u : BinaryNode α β}, u ∈ childList t → u ≠ .null := by
  intro t u hu
  cases t with
  | null => simp [childList] at hu
  | node k v l r =>
    cases l <;> cases r <;> simp [childList] at hu <;>
      first
      | (rcases hu with rfl | rfl <;> simp)
      | (subst hu; simp)

lemma maxH_append (a b : List (BinaryNode α β)) :
    maxH (a ++ b) = max (maxH a) (maxH b) := by
  induction a with
  | nil =>
    have h0 : maxH ([] : List (BinaryNode α β)) = 0 := rfl
    show maxH b = max (maxH ([] : List (BinaryNode α β))) (maxH b)
    omega
  | cons x xs ih =>
    show max (heightT x) (maxH (xs ++ b)) = max (max (heightT x) (maxH xs)) (maxH b)
    omega

lemma heightT_pos {t : BinaryNode α β} (h : t ≠ .null) : 1 ≤ heightT t := by
  cases t with
  | null => exact absurd rfl h
  | node k v l r =>
    show 1 ≤ 1 + max (heightT l) (heightT r)
    omega

lemma maxH_childList (k : α) (v : β) (l r : BinaryNode α β) :
    maxH (childList (BinaryNode.node k v l r)) = max (heightT l) (heightT r) := by
  cases l <;> cases r <;> simp [childList, maxH, heightT] <;> omega

lemma maxH_flatMap_childList :
    ∀ ts : List (BinaryNode α β), ts ≠ [] → (∀ t ∈ ts, t ≠ .null) →
      maxH (ts.flatMap childList) = maxH ts - 1 := by
  intro ts
  induction ts with
  | nil => intro h _; exact absurd rfl h
  | cons t ts ih =>
    intro _ hnn
    have ht : t ≠ .null := hnn t (List.mem_cons_self _ _)
    have hflat : (t :: ts).flatMap childList = childList t ++ ts.flatMap childList := by
      simp [List.flatMap_cons]
    rw [hflat, maxH_append]
    cases t with
    | null => exact absurd rfl ht
    | node k v l r =>
      rw [maxH_childList]
      cases ts with
      | nil =>
        simp only [List.flatMap_nil]
        have h0 : maxH ([] : List (BinaryNode α β)) = 0 := rfl
        show max (max (heightT l) (heightT r)) (maxH ([] : List (BinaryNode α β)))
            = max (1 + max (heightT l) (heightT r))
                (maxH ([] : List (BinaryNode α β))) - 1
        omega
      | cons u us =>
        have hne : (u :: us) ≠ ([] : List (BinaryNode α β)) := by simp
        have hnn2 : ∀ x ∈ u :: us, x ≠ BinaryNode.null :=
          fun x hx => hnn x (List.mem_cons_of_mem _ hx)
        rw [ih hne hnn2]
        have hu : 1 ≤ heightT u := heightT_pos (hnn2 u (List.mem_cons_self _ _))
        have hmaxu : heightT u ≤ maxH (u :: us) := by
          show heightT u ≤ max (heightT u) (maxH us)
          omega
        show max (max (heightT l) (heightT r)) (maxH (u :: us) - 1)
            = max (1 + max (heightT l) (heightT r)) (maxH (u :: us)) - 1
        omega

lemma atDepth_zero (t : BinaryNode α β) : atDepth 0 t = rootVals t := by
  cases t <;> rfl

lemma atDepth_succ (d : Nat) (t : BinaryNode α β) :
    atDepth (d + 1) t = (childList t).flatMap (atDepth d) := by
  cases t with
  | null => rfl
  | node k v l r =>
    show atDepth d l ++ atDepth d r = _
    cases l <;> cases r <;> simp [childList, atDepth]

lemma linesOf_eq_range :
    ∀ ts : List (BinaryNode α β), (∀ t ∈ ts, t ≠ .null) →
      linesOf ts = (List.range (maxH ts)).map (fun d => ts.flatMap (atDepth d)) := by
  intro ts
  induction ts using linesOf.induct with
  | case1 =>
    intro _
    have h1 : linesOf ([] : List (BinaryNode α β)) = [] := by rw [linesOf.eq_def]
    rw [h1]
    rfl
  | case2 t ts ih =>
    intro hnn
    have hch : ∀ u ∈ (t :: ts).flatMap childList, u ≠ BinaryNode.null := by
      intro u hu
      rcases List.mem_flatMap.mp hu with ⟨w, hw, hu2⟩
      exact childList_ne_null hu2
    have hM : maxH ((t :: ts).flatMap childList) = maxH (t :: ts) - 1 :=
      maxH_flatMap_childList (t :: ts) (by simp) hnn
    have hd : maxH (t :: ts) = max (heightT t) (maxH ts) := rfl
    have hpos : 1 ≤ maxH (t :: ts) := by
      have h1 := heightT_pos (hnn t (List.mem_cons_self _ _))
      omega
    have hsucc : maxH (t :: ts) = (maxH (t :: ts) - 1) + 1 := by omega
    rw [linesOf_cons, ih hch, hM]
    conv_rhs => rw [hsucc, List.range_succ_eq_map]
    rw [List.map_cons, List.map_map]
    congr 1
    · show (t :: ts).flatMap rootVals = (t :: ts).flatMap (atDepth 0)
      congr 1
      funext u
      exact (atDepth_zero u).symm
    · apply List.map_congr_left
      intro d _
      simp only [Function.comp_apply]
      rw [List.flatMap_assoc]
      simp only [← atDepth_succ]

lemma bfsLoop_eq :
    ∀ (cur next : List (BinaryNode α β)),
      bfsLoop cur next
        = (cur.flatMap rootVals).map Out.val
            ++ Out.nl :: linesJoin (linesOf (next ++ cur.flatMap childList)) := by
  intro cur next
  induction cur, next using bfsLoop.induct with
  | case1 =>
    rw [bfsLoop_nil_nil]
    simp only [List.flatMap_nil, List.append_nil, List.map_nil, List.nil_append]
    have h1 : linesOf ([] : List (BinaryNode α β)) = [] := by rw [linesOf.eq_def]
    rw [h1]
    rfl
  | case2 t next ih =>
    rw [bfsLoop_nil_cons, ih]
    simp only [List.flatMap_nil, List.append_nil, List.nil_append, List.map_nil]
    rw [linesOf_cons, linesJoin_cons]
    simp
  | case3 cur next ih =>
    rw [bfsLoop_null_cons, ih]
    simp [List.flatMap_cons, rootVals, childList]
  | case4 k v l r cur next ih =>
    rw [bfsLoop_node_cons, ih]
    simp [List.flatMap_cons, rootVals, List.append_assoc]

lemma LevelByLevelOut_eq (t : BinaryNode α β) (h : t ≠ .null) :
    LevelByLevelOut t = linesJoin (linesOf [t]) := by
  cases t with
  | null => exact absurd rfl h
  | node k v l r =>
    show bfsLoop [BinaryNode.node k v l r] [] = _
    rw [bfsLoop_eq, linesOf_cons, linesJoin_cons]
    simp [rootVals]

lemma linesOf_single (t : BinaryNode α β) (h : t ≠ .null) :
    linesOf [t] = (List.range (heightT t)).map (fun d => atDepth d t) := by
  have h1 : ∀ u ∈ [t], u ≠ BinaryNode.null := by
    intro u hu
    rw [List.mem_singleton.mp hu]
    exact h
  rw [linesOf_eq_range [t] h1]
  have h0 : maxH ([] : List (BinaryNode α β)) = 0 := rfl
  have hM : maxH [t] = heightT t := by
    show max (heightT t) (maxH ([] : List (BinaryNode α β))) = heightT t
    omega
  rw [hM]
  apply List.map_congr_left
  intro d _
  simp [List.flatMap_cons]

/-- C8: on any non-empty tree, `LevelByLevel` emits exactly one line per
depth, shallow to deep, each line holding that depth's values in
left-to-right order (each real node's left child is enqueued before its
right child); it emits nothing on an empty tree; and on the tree built by
inserting keys [5,3,8,1,4,7,9] in that order it emits three lines — `v5`,
then `v3 v8`, then `v1 v4 v7 v9` — values separated by single spaces. -/
theorem C8_level_by_level :
    (∀ t : BinaryNode α β, t ≠ .null →
        LevelByLevelOut t
          = linesJoin ((List.range (heightT t)).map (fun d => atDepth d t))) ∧
      LevelByLevelOut (.null : BinaryNode Int Int) = [] ∧
      renderOut (BinarySearchTree.LevelByLevel
          (((((((BinarySearchTree.empty.Insert ((5 : Int), "v5")).Insert
            (3, "v3")).Insert (8, "v8")).Insert (1, "v1")).Insert
            (4, "v4")).Insert (7, "v7")).Insert (9, "v9")))
        = "v5 \nv3 v8 \nv1 v4 v7 v9 \n" := by
  refine ⟨?_, rfl, ?_⟩
  · intro t ht
    rw [LevelByLevelOut_eq t ht, linesOf_single t ht]
  · have hroot :
        (((((((BinarySearchTree.empty.Insert ((5 : Int), "v5")).Insert
          (3, "v3")).Insert (8, "v8")).Insert (1, "v1")).Insert
          (4, "v4")).Insert (7, "v7")).Insert (9, "v9")).m_Root
        = BinaryNode.node 5 "v5"
            (BinaryNode.node 3 "v3" (BinaryNode.node 1 "v1" .null .null)
              (BinaryNode.node 4 "v4" .null .null))
            (BinaryNode.node 8 "v8" (BinaryNode.node 7 "v7" .null .null)
              (BinaryNode.node 9 "v9" .null .null)) := by rfl
    show renderOut (LevelByLevelOut
        (((((((BinarySearchTree.empty.Insert ((5 : Int), "v5")).Insert
          (3, "v3")).Insert (8, "v8")).Insert (1, "v1")).Insert
          (4, "v4")).Insert (7, "v7")).Insert (9, "v9")).m_Root) = _
    rw [hroot]
    simp only [LevelByLevelOut, bfsLoop_node_cons, bfsLoop_nil_cons,
      bfsLoop_nil_nil, bfsLoop_null_cons, childList, List.nil_append,
      List.append_nil, List.cons_append, List.singleton_append, renderOut]
    rfl

/-- Witness for C8: the general statement applied at the one-node tree
`(1, 10)`. -/
theorem C8_level_by_level_witness :
    LevelByLevelOut (BinaryNode.node (1 : Int) (10 : Int) .null .null)
      = linesJoin ((List.range (heightT (BinaryNode.node (1 : Int) (10 : Int)
          .null .null))).map
        (fun d => atDepth d (BinaryNode.node (1 : Int) (10 : Int) .null .null))) :=
  C8_level_by_level.1 (BinaryNode.node 1 10 .null .null) (by decide)

/-- C7: move transfer: after move construction or move assignment from
`a`, the destination holds exactly `a`'s prior root and size, and `a` is
left empty (`nullptr` root, `Size() = 0`, `Empty() = true`); move
self-assignment is a no-op. -/
theorem C7_move_transfer (a b : BinarySearchTree α β) :
    (moveConstruct a).1 = a ∧
      (moveConstruct a).2.m_Root = .null ∧
      (moveConstruct a).2.Size = 0 ∧
      (moveConstruct a).2.Empty = true ∧
      (moveAssign b a).1 = a ∧
      (moveAssign b a).2.m_Root = .null ∧
      (moveAssign b a).2.Size = 0 ∧
      (moveAssign b a).2.Empty = true ∧
      moveAssignSelf a = a :=
  ⟨rfl, rfl, rfl, rfl, rfl, rfl, rfl, rfl, rfl⟩

/-- C9 counterexample: with an allocation budget of 0, copy assignment
from a one-node source fails, and the destination (which previously held
the pair `(1, 10)`) is NOT left in its prior state — the claim's "B is
left in its well-defined prior state" is false on this code. -/
theorem C9_atomicity_counterexample :
    (copyAssignAlloc (⟨BinaryNode.node 1 10 .null .null, 1⟩ :
        BinarySearchTree Int Int) ⟨BinaryNode.node 2 20 .null .null, 1⟩ 0).2
      = false ∧
    (copyAssignAlloc (⟨BinaryNode.node 1 10 .null .null, 1⟩ :
        BinarySearchTree Int Int) ⟨BinaryNode.node 2 20 .null .null, 1⟩ 0).1
      ≠ ⟨BinaryNode.node 1 10 .null .null, 1⟩ := by
  constructor
  · rfl
  · decide

/-- C9 (amended): copy assignment is not atomic: `Clear()` runs before
`Copy`, so when node allocation fails partway through, the destination is
left in a well-defined state — the empty tree (`nullptr` root, size 0) —
rather than its prior state. -/
theorem C9_copy_assign_failure (dst src : BinarySearchTree α β) (fuel : Nat)
    (h : (copyAssignAlloc dst src fuel).2 = false) :
    (copyAssignAlloc dst src fuel).1 = BinarySearchTree.empty := by
  simp only [copyAssignAlloc] at h ⊢
  rcases hcp : copyAlloc src.m_Root fuel with _ | ⟨root2, fuel2⟩
  · rfl
  · rw [hcp] at h
    simp at h

/-- Witness for C9 (amended claim): the failing copy assignment of the
counterexample leaves the destination empty. -/
theorem C9_copy_assign_failure_witness :
    (copyAssignAlloc (⟨BinaryNode.node 1 10 .null .null, 1⟩ :
        BinarySearchTree Int Int) ⟨BinaryNode.node 2 20 .null .null, 1⟩ 0).1
      = BinarySearchTree.empty :=
  C9_copy_assign_failure (⟨BinaryNode.node 1 10 .null .null, 1⟩ :
      BinarySearchTree Int Int) ⟨BinaryNode.node 2 20 .null .null, 1⟩ 0
    (by decide)

/-- C1: for every tree reachable from a constructor by any sequence of
`Insert` and `Erase` (and `Clear`), the in-order traversal yields the keys
in strictly increasing order; equivalently, every node's left-subtree keys
are strictly below its key and its right-subtree keys strictly above, so no
key occurs twice. -/
theorem C1_ordering_invariant {s : BinarySearchTree α β} (h : Reachable s) :
    List.Pairwise (· < ·) (keysOf s.m_Root) ∧ IsBST s.m_Root :=
  ⟨IsBST_iff_pairwise.mp (reach_inv h).1, (reach_inv h).1⟩

/-- Witness for C1 at the concrete reachable tree `Insert (2,20); Insert
(1,10); Erase 2` starting from the empty tree. -/
theorem C1_ordering_invariant_witness :
    List.Pairwise (· < ·)
        (keysOf (((BinarySearchTree.empty.Insert ((2 : Int), (20 : Int))).Insert
          ((1 : Int), (10 : Int))).Erase 2).m_Root) ∧
      IsBST (((BinarySearchTree.empty.Insert ((2 : Int), (20 : Int))).Insert
        ((1 : Int), (10 : Int))).Erase 2).m_Root :=
  C1_ordering_invariant
    (Reachable.erase 2 (Reachable.insert (1, 10)
      (Reachable.insert (2, 20) Reachable.empty)))

/-- C3: `Size()` always equals the number of nodes reachable from the root
(the length of the in-order traversal) on reachable trees; and running any
operation sequence from the empty tree, `Size()` plus the number of
effective erases equals the number of effective inserts (`Size = N - M`). -/
theorem C3_size_invariant :
    (∀ s : BinarySearchTree α β, Reachable s → s.Size = (inorder s.m_Root).length) ∧
      (∀ ops : List (Op α β),
        (applyOps BinarySearchTree.empty ops).Size
            + (effCounts BinarySearchTree.empty ops).2
          = (effCounts BinarySearchTree.empty ops).1) := by
  constructor
  · intro s h
    exact (reach_inv h).2
  · intro ops
    have h := applyOps_size_account ops BinarySearchTree.empty trivial rfl
    have h0 : (BinarySearchTree.empty : BinarySearchTree α β).m_Size = 0 := rfl
    show (applyOps BinarySearchTree.empty ops).m_Size
        + (effCounts BinarySearchTree.empty ops).2
      = (effCounts BinarySearchTree.empty ops).1
    omega

/-- Witness for C3: a concrete reachable tree, and the run
`[ins (4,1), ins (4,2), del 4]` (one effective insert, one duplicate
insert, one effective erase). -/
theorem C3_size_invariant_witness :
    ((BinarySearchTree.empty.Insert ((4 : Int), (1 : Int))).Erase 4).Size
        = (inorder ((BinarySearchTree.empty.Insert
            ((4 : Int), (1 : Int))).Erase 4).m_Root).length ∧
      (applyOps (BinarySearchTree.empty : BinarySearchTree Int Int)
            [Op.ins (4, 1), Op.ins (4, 2), Op.del 4]).Size
          + (effCounts (BinarySearchTree.empty : BinarySearchTree Int Int)
            [Op.ins (4, 1), Op.ins (4, 2), Op.del 4]).2
        = (effCounts (BinarySearchTree.empty : BinarySearchTree Int Int)
            [Op.ins (4, 1), Op.ins (4, 2), Op.del 4]).1 :=
  ⟨C3_size_invariant.1 _ (Reachable.erase 4 (Reachable.insert (4, 1) Reachable.empty)),
   C3_size_invariant.2 [Op.ins (4, 1), Op.ins (4, 2), Op.del 4]⟩

/-- C4: inserting a pair whose key is already present is a no-op: the whole
tree (shape and stored value included) is unchanged, so in particular
`Size()` and the value `Find` returns for that key are unchanged — the new
value is not written. -/
theorem C4_duplicate_insert_noop (s : BinarySearchTree α β) (k : α) (v2 : β)
    (h : s.Contains k = true) :
    s.Insert (k, v2) = s ∧ (s.Insert (k, v2)).Size = s.Size ∧
      (s.Insert (k, v2)).Find k = s.Find k := by
  have hp : (findNode k s.m_Root).isSome := h
  have h1 : s.Insert (k, v2) = s := insert_present_noop v2 hp
  exact ⟨h1, by rw [h1], by rw [h1]⟩

/-- Witness for C4: key 2 is present with value 5; inserting (2, 7) changes
nothing. -/
theorem C4_duplicate_insert_noop_witness :
    (BinarySearchTree.empty.Insert ((2 : Int), (5 : Int))).Insert (2, 7)
        = BinarySearchTree.empty.Insert ((2 : Int), (5 : Int)) ∧
      ((BinarySearchTree.empty.Insert ((2 : Int), (5 : Int))).Insert (2, 7)).Size
        = (BinarySearchTree.empty.Insert ((2 : Int), (5 : Int))).Size ∧
      ((BinarySearchTree.empty.Insert ((2 : Int), (5 : Int))).Insert (2, 7)).Find 2
        = (BinarySearchTree.empty.Insert ((2 : Int), (5 : Int))).Find 2 :=
  C4_duplicate_insert_noop (BinarySearchTree.empty.Insert ((2 : Int), (5 : Int)))
    2 7 (by decide)

/-- C6: `Erase k` does not change the presence or stored value of any key
other than `k` (stated via the found pair `findData`); and when `k` is
absent, `Erase k` leaves the whole tree — shape, contents and size —
unchanged. -/
theorem C6_erase_frame (s : BinarySearchTree α β) (k : α) (h : IsBST s.m_Root) :
    (∀ k2, k2 ≠ k → findData k2 (s.Erase k).m_Root = findData k2 s.m_Root) ∧
      (s.Contains k = false → s.Erase k = s) := by
  constructor
  · intro k2 hne
    have hb2 : IsBST (s.Erase k).m_Root := eraseAux_IsBST h k
    apply Option.ext
    intro p
    simp only [Option.mem_def]
    rw [findData_iff hb2, findData_iff h]
    have hroot : (s.Erase k).m_Root = (eraseAux k s.m_Root).1 := rfl
    rw [hroot, eraseAux_inorder h k]
    simp only [List.mem_filter]
    constructor
    · rintro ⟨⟨hp, _⟩, hk⟩
      exact ⟨hp, hk⟩
    · rintro ⟨hp, hk⟩
      refine ⟨⟨hp, ?_⟩, hk⟩
      rw [hk]
      exact decide_eq_true hne
  · intro habs
    have hnone : findNode k s.m_Root = none := by
      rcases hfn : findNode k s.m_Root with _ | n
      · rfl
      · rw [BinarySearchTree.Contains, hfn] at habs
        exact absurd habs (by simp)
    exact erase_absent_noop hnone

/-- Witness for C6: erasing key 2 from the tree `{1, 2, 3}` leaves key 1's
pair findable unchanged; erasing the absent key 5 is a no-op. -/
theorem C6_erase_frame_witness :
    findData (1 : Int)
        ((((BinarySearchTree.empty.Insert ((2 : Int), (20 : Int))).Insert
          (1, 10)).Insert (3, 30)).Erase 2).m_Root
      = findData (1 : Int)
        ((((BinarySearchTree.empty.Insert ((2 : Int), (20 : Int))).Insert
          (1, 10)).Insert (3, 30)).m_Root) ∧
    (((BinarySearchTree.empty.Insert ((2 : Int), (20 : Int))).Insert
        (1, 10)).Insert (3, 30)).Erase 5
      = ((BinarySearchTree.empty.Insert ((2 : Int), (20 : Int))).Insert
        (1, 10)).Insert (3, 30) :=
  ⟨(C6_erase_frame (((BinarySearchTree.empty.Insert ((2 : Int), (20 : Int))).Insert
      (1, 10)).Insert (3, 30)) 2 (by decide)).1 1 (by decide),
   (C6_erase_frame (((BinarySearchTree.empty.Insert ((2 : Int), (20 : Int))).Insert
      (1, 10)).Insert (3, 30)) 5 (by decide)).2 (by decide)⟩

/-- C10: `Contains` is total: on any tree it returns `false` whenever no
node carries the key — in particular it never misbehaves on the empty
tree. -/
theorem C10_contains_total (s : BinarySearchTree α β) (k : α) :
    (k ∉ keysOf s.m_Root → s.Contains k = false) ∧
      (BinarySearchTree.empty : BinarySearchTree α β).Contains k = false := by
  constructor
  · intro h
    show (findNode k s.m_Root).isSome = false
    rw [findNode_none_of_not_mem h]
    rfl
  · rfl

/-- Witness for C10: key 5 is absent from the tree `{1}` and from the empty
tree. -/
theorem C10_contains_total_witness :
    ((BinarySearchTree.empty.Insert ((1 : Int), (10 : Int))).Contains 5 = false) ∧
      (BinarySearchTree.empty : BinarySearchTree Int Int).Contains 5 = false :=
  ⟨(C10_contains_total (BinarySearchTree.empty.Insert ((1 : Int), (10 : Int))) 5).1
      (by decide),
   (C10_contains_total (BinarySearchTree.empty.Insert ((1 : Int), (10 : Int))) 5).2⟩
